import Mathlib

/-!
Verification of the fragment-assembly core (`fragment.py`, `fasta.py`).

Strings are modelled as `List Char`.  The singly-linked fragment chains of
`fragment.py` are modelled as an arena: an array of fragment records whose
`next` field is an optional index into the same array.  Pointer mutation
(`set_next`, head/tail reassignment) becomes index surgery on the arena.
Loops over the linked structure use explicit fuel; every call site supplies
fuel large enough that a well-formed chain is walked in full, so the fuel is
a modelling artifact only.
-/

/-- Sequence data: a Python string over the fragment alphabet. -/
abbrev Str := List Char

/-! ## The longest-common-substring engine (external collaborator)

Modelled from the spec: the suffix-tree module imported by `fragment.py` is
an excluded external collaborator; §4.1 gives its contract: the output of
`find_longest_common_substrings` is the set of substrings common to both
inputs that are of maximal length among all common substrings. -/

/-- All distinct contiguous slices (substrings) of `a`, the empty one included. -/
def substrsOf (a : Str) : List Str :=
  ((List.range (a.length + 1)).flatMap fun i =>
    (List.range (a.length + 1 - i)).map fun len => (a.drop i).take len).dedup

/-- The distinct substrings common to `a` and `b`. -/
def commonSubs (a b : Str) : List Str :=
  (substrsOf a).filter fun s => decide (s <:+: b)

/-- The maximal length among the common substrings of `a` and `b`. -/
def maxCommonLen (a b : Str) : Nat :=
  ((commonSubs a b).map List.length).foldr max 0

/-- Modelled from the spec: the external engine's
`find_longest_common_substrings` output, per the §4.1 contract — the set of
common substrings of maximal length. -/
def find_longest_common_substrings (a b : Str) : List Str :=
  (commonSubs a b).filter fun s => s.length == maxCommonLen a b

/-- Python's `str.find`: index of the first occurrence of `pat` in `hay`,
`-1` when absent. -/
def pyFind (hay pat : Str) : Int :=
  match (List.range (hay.length + 1)).find? (fun i => pat.isPrefixOf (hay.drop i)) with
  | some i => (i : Int)
  | none => -1

/-- The dict `{my_index: ..., their_index: ...}` returned by
`Fragment.find_overlap`. -/
structure Overlap where
  my_index : Int
  their_index : Int
deriving DecidableEq, Repr

/-- `Fragment.find_overlap` (fragment.py lines 51-72), as a function of
`self.data` and the argument `data`.  The source compares
`substring_length / float(len(self.data)) > 0.5`; for the integer lengths
involved this float comparison equals `2 * substring_length > len(self.data)`
exactly, which is how it is written here. -/
def findOverlap (selfData data : Str) : Option Overlap :=
  match find_longest_common_substrings selfData data with
  | [s] =>
    if 2 * s.length > selfData.length then
      some ⟨pyFind selfData s, pyFind data s⟩
    else none
  | _ => none

/-! ## Fragment and Sequence (fragment.py) -/

/-- One linked-list node (`class Fragment`): data, the `next_fragment`
pointer (an arena index), and the mutable `offset` (default `-1`). -/
structure Fragment where
  data : Str
  next : Option Nat
  offset : Int
deriving DecidableEq, Repr

/-- `Fragment(data)`: fresh node with no successor and sentinel offset. -/
def Fragment.make (data : Str) : Fragment :=
  { data := data, next := none, offset := -1 }

/-- `Fragment.find_overlap` as a method. -/
def Fragment.find_overlap (f : Fragment) (data : Str) : Option Overlap :=
  findOverlap f.data data

/-- `class Sequence`: the arena of nodes ever allocated for this chain plus
the `head`/`tail` pointers and the `_length` counter. -/
structure Sequence where
  arena : Array Fragment
  head : Option Nat
  tail : Option Nat
  _length : Nat
deriving DecidableEq, Repr

instance : Inhabited Sequence := ⟨⟨#[], none, none, 0⟩⟩

/-- `Sequence()` — the empty chain. -/
def Sequence.empty : Sequence := ⟨#[], none, none, 0⟩

/-- `Sequence(first_fragment)` with an actual first fragment. -/
def Sequence.withFirst (f : Fragment) : Sequence :=
  ⟨#[f], some 0, some 0, 1⟩

/-- The `next_fragment` pointer of node `i` of arena `a` (`none` when `i` is
out of range, which never happens on a chain walk). -/
def nextOf (a : Array Fragment) (i : Nat) : Option Nat :=
  match a[i]? with
  | some f => f.next
  | none => none

/-- Walk the `next` links from an optional starting node, collecting the
indices visited, with fuel.  `some` is returned when the walk reached the
null pointer within the fuel budget. -/
def chainList (a : Array Fragment) : Nat → Option Nat → Option (List Nat)
  | _, none => some []
  | 0, some _ => none
  | fuel + 1, some i =>
    if i < a.size then (chainList a fuel (nextOf a i)).map (i :: ·) else none

/-- The indices reachable from `head` by following `next` links.  Fuel
`size + 1` suffices for every acyclic chain. -/
def Sequence.reachable (s : Sequence) : Option (List Nat) :=
  chainList s.arena (s.arena.size + 1) s.head

/-- The `(data, offset)` pair stored at node `i` of an arena. -/
def entryAt (a : Array Fragment) (i : Nat) : Str × Int :=
  match a[i]? with
  | some f => (f.data, f.offset)
  | none => ([], 0)

/-- The `(data, offset)` pairs of the fragments of the chain, in head-to-end
order: the observable content of a `Sequence`. -/
def Sequence.toList (s : Sequence) : List (Str × Int) :=
  match s.reachable with
  | some is => is.map (entryAt s.arena)
  | none => []

/-- Well-formedness of a `Sequence` value: the walk from `head` terminates,
visits no node twice, `_length` counts exactly the visited nodes, and `tail`
is the last visited node.  Every sequence built through the public
operations of the module satisfies this. -/
def Sequence.wfb (s : Sequence) : Bool :=
  match s.reachable with
  | some is => is.Nodup && s._length == is.length && s.tail == is.getLast?
  | none => false

/-- Propositional form of `Sequence.wfb`. -/
def Sequence.WF (s : Sequence) : Prop := s.wfb = true

instance (s : Sequence) : Decidable s.WF := by
  unfold Sequence.WF; infer_instance

/-- The chain-length invariant of spec §3 in isolation: the stored length
counter equals the number of fragments reachable from `head` (together with
the internal no-revisit property of the walk). -/
def Sequence.lenInv (s : Sequence) : Prop :=
  ∃ is, s.reachable = some is ∧ is.Nodup ∧ s._length = is.length

/-- `Sequence.append(data, offset=-1)` (fragment.py lines 99-118): allocate
`Fragment(data)` with the given offset, link it after the current tail (or
make it the head when `_length == 0`), move `tail`, bump `_length`.  The
`tail = none` case with a nonzero counter raises `AttributeError` in Python
and is unreachable from well-formed states; it is given a no-link result
here. -/
def Sequence.append (s : Sequence) (data : Str) (offset : Int) : Sequence :=
  let newIdx := s.arena.size
  let newFrag : Fragment := { data := data, next := none, offset := offset }
  if s._length == 0 then
    { arena := s.arena.push newFrag, head := some newIdx, tail := some newIdx,
      _length := s._length + 1 }
  else
    match s.tail with
    | some t =>
      { arena := (s.arena.push newFrag).modify t (fun f => { f with next := some newIdx }),
        head := s.head, tail := some newIdx, _length := s._length + 1 }
    | none =>
      { arena := s.arena.push newFrag, head := s.head, tail := some newIdx,
        _length := s._length + 1 }

/-- One iteration of the scan of `Sequence.insert_if_overlaps`
(fragment.py lines 128-150), at node `cur` with predecessor `prev`:
the duplicate guard, the overlap test, and the three outcomes
(prefix splice when `their_index > 0`, suffix splice when `my_index > 0`,
or a fresh fragment that is allocated but never linked). -/
def insertBody (s : Sequence) (data : Str) (cur : Nat) (prev : Option Nat)
    (found : Bool) : Sequence × Bool :=
  match s.arena[cur]? with
  | none => (s, found)
  | some curFrag =>
    if curFrag.data ≠ data then
      match curFrag.find_overlap data with
      | some ov =>
        let newIdx := s.arena.size
        if ov.their_index > 0 then
          -- new_fragment.set_next(current); new_fragment.set_offset(their_index);
          -- previous.set_next(new_fragment) when previous exists;
          -- self.head = new_fragment (unconditionally); length += 1
          let newFrag : Fragment := { data := data, next := some cur, offset := ov.their_index }
          let arena1 := s.arena.push newFrag
          let arena2 :=
            match prev with
            | some p => arena1.modify p (fun f => { f with next := some newIdx })
            | none => arena1
          ({ arena := arena2, head := some newIdx, tail := s.tail,
             _length := s._length + 1 }, true)
        else if ov.my_index > 0 then
          -- new_fragment.set_next(current.get_next()); current.set_next(new_fragment);
          -- current.set_offset(my_index); self.tail = new_fragment; length += 1
          let newFrag : Fragment := { data := data, next := nextOf s.arena cur, offset := -1 }
          let arena1 := (s.arena.push newFrag).modify cur
            (fun f => { f with next := some newIdx, offset := ov.my_index })
          ({ arena := arena1, head := s.head, tail := some newIdx,
             _length := s._length + 1 }, true)
        else
          -- Fragment(data) was allocated but no branch links it in
          ({ s with arena := s.arena.push (Fragment.make data) }, true)
      | none => (s, found)
    else (s, found)

/-- The `while current:` scan of `insert_if_overlaps`: run the body, then
`previous = current; current = current.get_next()` read from the mutated
arena. -/
def insertLoop (data : Str) : Nat → Sequence → Option Nat → Option Nat → Bool → Sequence × Bool
  | _, s, none, _, found => (s, found)
  | 0, s, some _, _, found => (s, found)
  | fuel + 1, s, some cur, prev, found =>
    let sb := insertBody s data cur prev found
    insertLoop data fuel sb.1 (nextOf sb.1.arena cur) (some cur) sb.2

/-- `Sequence.insert_if_overlaps(data)` (fragment.py lines 120-151).  The
scan visits each original node once and each suffix-spliced node once, so
`2 * size + 2` fuel always covers a well-formed chain. -/
def Sequence.insert_if_overlaps (s : Sequence) (data : Str) : Sequence × Bool :=
  insertLoop data (2 * s.arena.size + 2) s s.head none false

/-- `Sequence.merge(first, second, offset)` (fragment.py lines 153-162):
append every fragment of `second`, with its own offset, onto `first`.  The
`offset` argument is never read, exactly as in the source. -/
def Sequence.merge (first second : Sequence) (offset : Int) : Sequence :=
  second.toList.foldl (fun acc d => acc.append d.1 d.2) first

/-- The fragment the `head` pointer designates. -/
def Sequence.firstFrag (s : Sequence) : Option Fragment :=
  s.head.bind fun i => s.arena[i]?

/-- The fragment the `tail` pointer designates. -/
def Sequence.lastFrag (s : Sequence) : Option Fragment :=
  s.tail.bind fun i => s.arena[i]?

/-- `Sequence.merge_if_overlaps(other_sequence)` (fragment.py lines
164-183): check `head.find_overlap(other.tail.data)` then
`tail.find_overlap(other.head.data)`; merge other-then-self on the first,
self-then-other on the second, `None` otherwise.  On an empty chain Python
would raise `AttributeError`; that junk case yields `none` here. -/
def Sequence.merge_if_overlaps (s other : Sequence) : Option Sequence :=
  match s.firstFrag, s.lastFrag, other.firstFrag, other.lastFrag with
  | some myHead, some myTail, some olHead, some olTail =>
    match myHead.find_overlap olTail.data with
    | some ov => some (Sequence.merge other s ov.their_index)
    | none =>
      match myTail.find_overlap olHead.data with
      | some ov => some (Sequence.merge s other ov.my_index)
      | none => none
  | _, _, _, _ => none

/-- The offset-honoring concatenation pass of `Sequence.flatten`
(fragment.py lines 202-209): full `data` unless `offset > 0`, in which case
`data[:offset]`. -/
def flattenWalk (a : Array Fragment) : Nat → Option Nat → Str
  | 0, _ => []
  | _, none => []
  | fuel + 1, some i =>
    match a[i]? with
    | none => []
    | some fr =>
      (if fr.offset > 0 then fr.data.take fr.offset.toNat else fr.data) ++
        flattenWalk a fuel fr.next

/-- The re-chunking loop of `flatten` (fragment.py lines 210-214),
`for index in range(0, length, max_width)`, as the list of successive
`max_width`-sized slices.  Fuel `length of the string` covers every positive
width. -/
def chunksOf (w : Nat) : Nat → Str → List Str
  | 0, _ => []
  | _, [] => []
  | fuel + 1, s => s.take w :: chunksOf w fuel (s.drop w)

/-- `Sequence.flatten(max_width=0, line_termination)` (fragment.py lines
195-218). -/
def Sequence.flatten (s : Sequence) (max_width : Nat) (line_termination : Str) : Str :=
  let out := flattenWalk s.arena (s.arena.size + 1) s.head
  if max_width > 0 then
    ((chunksOf max_width out.length out).map (· ++ line_termination)).flatten
  else out

/-! ## The driver (fasta.py) -/

/-- The scan of `insert_fragment_in_place` (fasta.py lines 38-61): try
`insert_if_overlaps` on each sequence in order, keeping the (in-place
mutated) sequence and stopping at the first acceptance. -/
def ingestScan (fragment : Str) : List Sequence → List Sequence
  | [] => [Sequence.empty.append fragment (-1)]
  | s :: rest =>
    let sb := s.insert_if_overlaps fragment
    if sb.2 then sb.1 :: rest else sb.1 :: ingestScan fragment rest

/-- `insert_fragment_in_place(sequences, fragment)` (fasta.py lines 38-61):
insert into the first accepting sequence, else append a fresh singleton
chain (`Sequence(); append(fragment)`). -/
def insert_fragment_in_place (sequences : List Sequence) (fragment : Str) : List Sequence :=
  ingestScan fragment sequences

/-- The inner `for j in range(i+1, len(sequences))` scan of the assemble
loop (fasta.py lines 99-108): at the first pair that merges, remove both
inputs and append the merged chain (Python's identity-based `remove` of
`sequences[j]` then `sequences[i]`, with `i < j`, is exactly this index
surgery).  Fuel counts the remaining `j` steps. -/
def innerScan (seqs : List Sequence) (i : Nat) : Nat → Nat → Option (List Sequence)
  | 0, _ => none
  | fuel + 1, j =>
    if j < seqs.length then
      match (seqs[i]!).merge_if_overlaps (seqs[j]!) with
      | some m => some (((seqs.eraseIdx j).eraseIdx i) ++ [m])
      | none => innerScan seqs i fuel (j + 1)
    else none

/-- The outer `for i in range(0, len(sequences)-1)` scan of one assemble
round (fasta.py lines 91-108), including the `i > len(sequences)-1` break
guard; `k` counts the remaining iterations of the range object built at
round entry. -/
def roundScan : Nat → Nat → List Sequence → List Sequence
  | 0, _, seqs => seqs
  | k + 1, i, seqs =>
    if i < seqs.length then
      match innerScan seqs i (seqs.length + 1) (i + 1) with
      | some seqs' => roundScan k (i + 1) seqs'
      | none => roundScan k (i + 1) seqs
    else seqs

/-- One full round of the assemble loop over the current set of chains. -/
def doRound (seqs : List Sequence) : List Sequence :=
  roundScan (seqs.length - 1) 0 seqs

/-- Result of the assemble loop: normal exit of the `while`, the fatal
`exit(2)` stuck state (carrying the chain count), or fuel exhaustion (shown
below never to happen). -/
inductive AsmResult where
  | done : List Sequence → AsmResult
  | stuck : Nat → AsmResult
  | fuelOut : AsmResult
deriving DecidableEq, Repr

/-- The `while len(sequences) > 1` assemble loop (fasta.py lines 88-117)
with its `previous_size` stall detection. -/
def assembleLoop : Nat → Nat → List Sequence → AsmResult
  | 0, _, _ => AsmResult.fuelOut
  | fuel + 1, previous_size, seqs =>
    if seqs.length ≤ 1 then AsmResult.done seqs
    else
      let seqs' := doRound seqs
      if previous_size == seqs'.length then AsmResult.stuck seqs'.length
      else assembleLoop fuel seqs'.length seqs'

/-- The whole assemble phase on an initial set: `previous_size` starts at
the set's size (fasta.py line 88). -/
def assemble (seqs : List Sequence) : AsmResult :=
  assembleLoop (seqs.length + 1) seqs.length seqs

/-- Modelled from the spec (claim C4's words): scan every ordered pair
`(i, j)`, `j > i`, in order, and stop at the first successful merge,
removing both inputs and inserting the merged chain. -/
def findFirstMergeFromTop (seqs : List Sequence) : Option (List Sequence) :=
  (List.range seqs.length).findSome? fun i =>
    (List.range seqs.length).findSome? fun j =>
      if i < j then
        match (seqs[i]!).merge_if_overlaps (seqs[j]!) with
        | some m => some (((seqs.eraseIdx j).eraseIdx i) ++ [m])
        | none => none
      else none

/-- Modelled from the spec (claim C4's words): a round in which the pair
scan restarts from the top of the now-mutated set after every successful
merge, until a full scan finds none. -/
def specRestartRound : Nat → List Sequence → List Sequence
  | 0, seqs => seqs
  | fuel + 1, seqs =>
    match findFirstMergeFromTop seqs with
    | some seqs' => specRestartRound fuel seqs'
    | none => seqs

/-- Data of the fragment at the `head` pointer (defaults irrelevant: used
only under hypotheses making the fragment exist). -/
def Sequence.headData (s : Sequence) : Str :=
  (s.firstFrag.map Fragment.data).getD []

/-- Data of the fragment at the `tail` pointer. -/
def Sequence.tailData (s : Sequence) : Str :=
  (s.lastFrag.map Fragment.data).getD []

/-- The scan step at node `cur` of `insert_if_overlaps` would take the
prefix-extension branch (`their_index > 0`) on input `data`. -/
def prefixSpliceAtb (s : Sequence) (data : Str) (cur : Nat) : Bool :=
  match s.arena[cur]? with
  | some cf =>
    cf.data != data &&
      (match cf.find_overlap data with
       | some ov => decide (0 < ov.their_index)
       | none => false)
  | none => false

/-- Mid-scan state of `insert_if_overlaps`: the walk invariant relating the
sequence and the node the scan is visiting. -/
def scanState (s : Sequence) (cur : Nat) : Prop :=
  ∃ is, s.reachable = some is ∧ is.Nodup ∧ s._length = is.length ∧ cur ∈ is

/-- The claim-side notion for C1: `S` is the unique common substring of
maximal length of `a` and `b`. -/
def UniqueMaxCommon (a b S : Str) : Prop :=
  S <:+: a ∧ S <:+: b ∧
    (∀ T, T <:+: a → T <:+: b → T.length ≤ S.length) ∧
    (∀ T, T <:+: a → T <:+: b → T.length = S.length → T = S)

/-! ## Concrete chains used for witnesses and counterexamples -/

/-- Two-fragment chain `TTTT → AAAB` (well formed). -/
def exChain2 : Sequence :=
  (Sequence.empty.append (['T','T','T','T']) (-1)).append (['A','A','A','B']) (-1)

/-- Incoming read `CAAA`: its unique maximal common substring with `AAAB`
is `AAA`, at index 1 of `CAAA`, so the scan prefix-splices it before the
interior fragment `AAAB`. -/
def exRead2 : Str := ['C','A','A','A']

/-- Singleton chain `AAAB`. -/
def exChain1 : Sequence := Sequence.empty.append (['A','A','A','B']) (-1)

/-- Incoming read `AAAC`: unique maximal common substring `AAA` sits at
index 0 of both strings, so `insert_if_overlaps` reports an overlap but
performs no splice. -/
def exRead1 : Str := ['A','A','A','C']

/-- Singleton chain `AACCC`. -/
def seqA : Sequence := Sequence.empty.append (['A','A','C','C','C']) (-1)

/-- Singleton chain `CCCGG`; merges with `seqA` (common `CCC`). -/
def seqB : Sequence := Sequence.empty.append (['C','C','C','G','G']) (-1)

/-- Singleton chain `GGAAC`; merges with the `seqA`/`seqB` merge result
(common `AAC`), but with nothing else in the initial set. -/
def seqC : Sequence := Sequence.empty.append (['G','G','A','A','C']) (-1)

/-- The three-chain assembly set distinguishing the code's round order from
a restart-from-the-top round. -/
def exSet3 : List Sequence := [seqA, seqB, seqC]

/-- Singleton chain whose only fragment has offset `0`. -/
def exChain0 : Sequence := Sequence.empty.append (['A','B']) 0

/-! ## Lemmas about the chain walk -/

theorem chainList_none (a : Array Fragment) (f : Nat) : chainList a f none = some [] := by
  cases f <;> rfl

theorem chainList_zero_some (a : Array Fragment) (i : Nat) :
    chainList a 0 (some i) = none := rfl

theorem chainList_succ_some (a : Array Fragment) (f : Nat) (i : Nat) :
    chainList a (f + 1) (some i) =
      if i < a.size then (chainList a f (nextOf a i)).map (i :: ·) else none := rfl

theorem chainList_mono {a : Array Fragment} {f f' : Nat} {o : Option Nat} {is : List Nat}
    (h : chainList a f o = some is) (hf : f ≤ f') : chainList a f' o = some is := by
  induction f generalizing f' o is with
  | zero =>
    cases o with
    | none =>
      rw [chainList_none] at h
      rw [chainList_none, h]
    | some i => rw [chainList_zero_some] at h; cases h
  | succ n ih =>
    cases o with
    | none =>
      rw [chainList_none] at h
      rw [chainList_none, h]
    | some i =>
      rw [chainList_succ_some] at h
      by_cases hi : i < a.size
      · rw [if_pos hi] at h
        cases hrec : chainList a n (nextOf a i) with
        | none => rw [hrec] at h; cases h
        | some rest =>
          rw [hrec] at h
          obtain ⟨f'', rfl⟩ : ∃ f'', f' = f'' + 1 := ⟨f' - 1, by omega⟩
          rw [chainList_succ_some, if_pos hi, ih hrec (by omega)]
          exact h
      · rw [if_neg hi] at h; cases h

theorem chainList_mem_lt {a : Array Fragment} {f : Nat} {o : Option Nat} {is : List Nat}
    (h : chainList a f o = some is) : ∀ i ∈ is, i < a.size := by
  induction f generalizing o is with
  | zero =>
    cases o with
    | none => rw [chainList_none] at h; cases h; intro i hi; cases hi
    | some i => rw [chainList_zero_some] at h; cases h
  | succ n ih =>
    cases o with
    | none => rw [chainList_none] at h; cases h; intro i hi; cases hi
    | some i =>
      rw [chainList_succ_some] at h
      by_cases hi : i < a.size
      · rw [if_pos hi] at h
        cases hrec : chainList a n (nextOf a i) with
        | none => rw [hrec] at h; cases h
        | some rest =>
          rw [hrec] at h
          simp only [Option.map_some', Option.some.injEq] at h
          subst h
          intro j hj
          rcases List.mem_cons.mp hj with rfl | hj
          · exact hi
          · exact ih hrec j hj
      · rw [if_neg hi] at h; cases h

theorem chainList_length_le {a : Array Fragment} {f : Nat} {o : Option Nat} {is : List Nat}
    (h : chainList a f o = some is) : is.length ≤ f := by
  induction f generalizing o is with
  | zero =>
    cases o with
    | none => rw [chainList_none] at h; cases h; exact Nat.le_refl _
    | some i => rw [chainList_zero_some] at h; cases h
  | succ n ih =>
    cases o with
    | none => rw [chainList_none] at h; cases h; exact Nat.zero_le _
    | some i =>
      rw [chainList_succ_some] at h
      by_cases hi : i < a.size
      · rw [if_pos hi] at h
        cases hrec : chainList a n (nextOf a i) with
        | none => rw [hrec] at h; cases h
        | some rest =>
          rw [hrec] at h
          simp only [Option.map_some', Option.some.injEq] at h
          subst h
          simpa using Nat.succ_le_succ (ih hrec)
      · rw [if_neg hi] at h; cases h

theorem chainList_congr {a a' : Array Fragment} {f : Nat} {o : Option Nat} {is : List Nat}
    (h : chainList a f o = some is) (hsz : a.size ≤ a'.size)
    (hag : ∀ i ∈ is, nextOf a' i = nextOf a i) :
    chainList a' f o = some is := by
  induction f generalizing o is with
  | zero =>
    cases o with
    | none => rw [chainList_none] at h; rw [chainList_none, h]
    | some i => rw [chainList_zero_some] at h; cases h
  | succ n ih =>
    cases o with
    | none => rw [chainList_none] at h; rw [chainList_none, h]
    | some i =>
      rw [chainList_succ_some] at h
      by_cases hi : i < a.size
      · rw [if_pos hi] at h
        cases hrec : chainList a n (nextOf a i) with
        | none => rw [hrec] at h; cases h
        | some rest =>
          rw [hrec] at h
          simp only [Option.map_some', Option.some.injEq] at h
          subst h
          rw [chainList_succ_some, if_pos (Nat.lt_of_lt_of_le hi hsz)]
          rw [hag i (List.mem_cons_self i rest)]
          rw [ih hrec (fun j hj => hag j (List.mem_cons_of_mem i hj))]
          rfl
      · rw [if_neg hi] at h; cases h

theorem nextOf_push_lt {a : Array Fragment} {x : Fragment} {i : Nat} (h : i < a.size) :
    nextOf (a.push x) i = nextOf a i := by
  unfold nextOf
  rw [Array.getElem?_push_lt a x i h, Array.getElem?_eq_getElem h]

theorem nextOf_push_eq {a : Array Fragment} {x : Fragment} :
    nextOf (a.push x) a.size = x.next := by
  unfold nextOf
  rw [Array.getElem?_push_eq]

theorem nextOf_modify_ne {a : Array Fragment} {g : Fragment → Fragment} {i j : Nat}
    (h : i ≠ j) : nextOf (a.modify i g) j = nextOf a j := by
  unfold nextOf
  rw [Array.getElem?_modify, if_neg h]

theorem nextOf_modify_self {a : Array Fragment} {g : Fragment → Fragment} {i : Nat}
    (h : i < a.size) : nextOf (a.modify i g) i = (g (a[i])).next := by
  unfold nextOf
  rw [Array.getElem?_modify, if_pos rfl, Array.getElem?_eq_getElem h]
  rfl

theorem entryAt_push_lt {a : Array Fragment} {x : Fragment} {i : Nat} (h : i < a.size) :
    entryAt (a.push x) i = entryAt a i := by
  unfold entryAt
  rw [Array.getElem?_push_lt a x i h, Array.getElem?_eq_getElem h]

theorem entryAt_push_eq {a : Array Fragment} {x : Fragment} :
    entryAt (a.push x) a.size = (x.data, x.offset) := by
  unfold entryAt
  rw [Array.getElem?_push_eq]

theorem entryAt_modify_ne {a : Array Fragment} {g : Fragment → Fragment} {i j : Nat}
    (h : i ≠ j) : entryAt (a.modify i g) j = entryAt a j := by
  unfold entryAt
  rw [Array.getElem?_modify, if_neg h]

theorem entryAt_modify_keep {a : Array Fragment} {g : Fragment → Fragment} {i : Nat}
    (hg : ∀ fr, (g fr).data = fr.data ∧ (g fr).offset = fr.offset) :
    entryAt (a.modify i g) i = entryAt a i := by
  unfold entryAt
  rw [Array.getElem?_modify, if_pos rfl]
  cases a[i]? with
  | none => rfl
  | some fr => simp [(hg fr).1, (hg fr).2]

theorem nodup_length_le_size {a : Array Fragment} {f : Nat} {o : Option Nat} {is : List Nat}
    (h : chainList a f o = some is) (hnd : is.Nodup) : is.length ≤ a.size := by
  have hsub : is ⊆ List.range a.size := by
    intro i hi
    exact List.mem_range.mpr (chainList_mem_lt h i hi)
  calc is.length = is.toFinset.card := (List.toFinset_card_of_nodup hnd).symm
    _ ≤ (List.range a.size).toFinset.card := by
        apply Finset.card_le_card
        intro i hi
        rw [List.mem_toFinset] at hi ⊢
        exact hsub hi
    _ ≤ (List.range a.size).length := List.toFinset_card_le _
    _ = a.size := List.length_range _

theorem chainList_cons_elim {a : Array Fragment} {f : Nat} {o : Option Nat} {i : Nat}
    {rest : List Nat} (h : chainList a f o = some (i :: rest)) :
    o = some i ∧ i < a.size ∧ ∃ f', f = f' + 1 ∧ chainList a f' (nextOf a i) = some rest := by
  cases o with
  | none => rw [chainList_none] at h; cases h
  | some j =>
    cases f with
    | zero => rw [chainList_zero_some] at h; cases h
    | succ n =>
      rw [chainList_succ_some] at h
      by_cases hj : j < a.size
      · rw [if_pos hj] at h
        cases hrec : chainList a n (nextOf a j) with
        | none => rw [hrec] at h; cases h
        | some rest' =>
          rw [hrec] at h
          simp only [Option.map_some', Option.some.injEq, List.cons.injEq] at h
          obtain ⟨rfl, rfl⟩ := h
          exact ⟨rfl, hj, n, rfl, hrec⟩
      · rw [if_neg hj] at h; cases h

theorem chainList_exact {a : Array Fragment} {f : Nat} {o : Option Nat} {is : List Nat}
    (h : chainList a f o = some is) : chainList a is.length o = some is := by
  induction is generalizing o f with
  | nil =>
    cases o with
    | none => exact chainList_none a 0
    | some i =>
      exfalso
      cases f with
      | zero => rw [chainList_zero_some] at h; cases h
      | succ n =>
        rw [chainList_succ_some] at h
        by_cases hi : i < a.size
        · rw [if_pos hi] at h
          cases hrec : chainList a n (nextOf a i) with
          | none => rw [hrec] at h; cases h
          | some rest => rw [hrec] at h; simp at h
        · rw [if_neg hi] at h; cases h
  | cons i rest ih =>
    obtain ⟨rfl, hi, f', rfl, hrec⟩ := chainList_cons_elim h
    rw [List.length_cons, chainList_succ_some, if_pos hi, ih hrec]
    rfl

theorem chainList_snoc {a : Array Fragment} {f : Nat} {o : Option Nat} {is : List Nat} {t : Nat}
    (h : chainList a f o = some is) (hnd : is.Nodup) (hlast : is.getLast? = some t)
    {x : Fragment} (hx : x.next = none) :
    chainList ((a.push x).modify t (fun fr => { fr with next := some a.size }))
      (is.length + 2) o = some (is ++ [a.size]) := by
  induction is generalizing o f with
  | nil => cases hlast
  | cons i rest ih =>
    obtain ⟨rfl, hi, f', rfl, hrec⟩ := chainList_cons_elim h
    have hsz : i < ((a.push x).modify t
        (fun fr => { fr with next := some a.size })).size := by
      rw [Array.size_modify, Array.size_push]
      exact Nat.lt_succ_of_lt hi
    cases rest with
    | nil =>
      have ht : t = i := by
        rw [List.getLast?_singleton] at hlast
        exact (Option.some.inj hlast).symm
      subst ht
      rw [List.length_cons, List.length_nil]
      rw [chainList_succ_some, if_pos hsz]
      have hnext : nextOf ((a.push x).modify t (fun fr => { fr with next := some a.size })) t
          = some a.size := by
        have htp : t < (a.push x).size := by
          rw [Array.size_push]; exact Nat.lt_succ_of_lt hi
        rw [nextOf_modify_self htp]
      rw [hnext]
      rw [chainList_succ_some]
      have hszn : a.size < ((a.push x).modify t
          (fun fr => { fr with next := some a.size })).size := by
        rw [Array.size_modify, Array.size_push]
        exact Nat.lt_succ_self _
      rw [if_pos hszn]
      have hnext2 : nextOf ((a.push x).modify t (fun fr => { fr with next := some a.size }))
          a.size = none := by
        rw [nextOf_modify_ne (Nat.ne_of_lt hi), nextOf_push_eq, hx]
      rw [hnext2, chainList_none]
      rfl
    | cons j rest' =>
      have hlast' : (j :: rest').getLast? = some t := by
        rw [List.getLast?_cons_cons] at hlast
        exact hlast
      have hmem : t ∈ j :: rest' := List.mem_of_getLast?_eq_some hlast'
      have hninrest : i ∉ j :: rest' := by
        intro hmem2
        exact (List.nodup_cons.mp hnd).1 hmem2
      have hit : t ≠ i := fun he => hninrest (he ▸ hmem)
      have hnexti : nextOf ((a.push x).modify t (fun fr => { fr with next := some a.size })) i
          = nextOf a i := by
        rw [nextOf_modify_ne hit, nextOf_push_lt hi]
      rw [List.length_cons, chainList_succ_some, if_pos hsz, hnexti]
      rw [ih hrec (List.nodup_cons.mp hnd).2 hlast']
      rfl

theorem chainList_insertAfter {a : Array Fragment} {f : Nat} {o : Option Nat}
    {l1 l2 : List Nat} {cur : Nat} {g : Fragment → Fragment} {x : Fragment}
    (h : chainList a f o = some (l1 ++ cur :: l2))
    (hnd : (l1 ++ cur :: l2).Nodup)
    (hg : ∀ fr, (g fr).next = some a.size)
    (hx : x.next = nextOf a cur) :
    chainList ((a.push x).modify cur g) ((l1 ++ cur :: l2).length + 2) o
      = some (l1 ++ cur :: a.size :: l2) := by
  induction l1 generalizing o f with
  | nil =>
    rw [List.nil_append] at h hnd
    obtain ⟨rfl, hcur, f', rfl, hrec⟩ := chainList_cons_elim h
    have hcurp : cur < (a.push x).size := by
      rw [Array.size_push]; exact Nat.lt_succ_of_lt hcur
    have hsz : cur < ((a.push x).modify cur g).size := by
      rw [Array.size_modify]; exact hcurp
    have hszn : a.size < ((a.push x).modify cur g).size := by
      rw [Array.size_modify, Array.size_push]; exact Nat.lt_succ_self _
    have hnin : cur ∉ l2 := (List.nodup_cons.mp hnd).1
    -- the tail chain is unchanged in the new arena
    have hl2a : chainList a l2.length (nextOf a cur) = some l2 := chainList_exact hrec
    have hl2 : chainList ((a.push x).modify cur g) l2.length (nextOf a cur) = some l2 := by
      refine chainList_congr hl2a ?_ ?_
      · rw [Array.size_modify, Array.size_push]; exact Nat.le_succ _
      · intro i hi
        have hilt : i < a.size := chainList_mem_lt hrec i hi
        have hicur : cur ≠ i := fun he => hnin (he ▸ hi)
        rw [nextOf_modify_ne hicur, nextOf_push_lt hilt]
    rw [List.nil_append, List.length_cons]
    rw [chainList_succ_some, if_pos hsz]
    have hnextc : nextOf ((a.push x).modify cur g) cur = some a.size := by
      rw [nextOf_modify_self hcurp, hg]
    rw [hnextc, chainList_succ_some, if_pos hszn]
    have hnextn : nextOf ((a.push x).modify cur g) a.size = nextOf a cur := by
      rw [nextOf_modify_ne (Nat.ne_of_lt hcur), nextOf_push_eq, hx]
    rw [hnextn]
    rw [chainList_mono hl2 (Nat.le_succ _)]
    rfl
  | cons i l1' ih =>
    rw [List.cons_append] at h hnd
    obtain ⟨rfl, hi, f', rfl, hrec⟩ := chainList_cons_elim h
    have hicur : cur ≠ i := by
      intro he
      exact (List.nodup_cons.mp hnd).1 (he ▸ List.mem_append_right l1'
        (List.mem_cons_self cur l2))
    have hsz : i < ((a.push x).modify cur g).size := by
      rw [Array.size_modify, Array.size_push]; exact Nat.lt_succ_of_lt hi
    have hnexti : nextOf ((a.push x).modify cur g) i = nextOf a i := by
      rw [nextOf_modify_ne hicur, nextOf_push_lt hi]
    rw [List.cons_append, List.length_cons, chainList_succ_some, if_pos hsz, hnexti]
    rw [ih hrec (List.nodup_cons.mp hnd).2]
    rfl

theorem chainList_some_ne_nil {a : Array Fragment} {f : Nat} {i : Nat}
    (h : chainList a f (some i) = some []) : False := by
  cases f with
  | zero => rw [chainList_zero_some] at h; cases h
  | succ n =>
    rw [chainList_succ_some] at h
    by_cases hi : i < a.size
    · rw [if_pos hi] at h
      cases hrec : chainList a n (nextOf a i) with
      | none => rw [hrec] at h; cases h
      | some rest => rw [hrec] at h; simp at h
    · rw [if_neg hi] at h; cases h

theorem wf_unpack {s : Sequence} (h : s.WF) :
    ∃ is, s.reachable = some is ∧ is.Nodup ∧ s._length = is.length ∧ s.tail = is.getLast? := by
  unfold Sequence.WF Sequence.wfb at h
  cases hre : s.reachable with
  | none => rw [hre] at h; cases h
  | some is =>
    rw [hre] at h
    simp only [Bool.and_eq_true, decide_eq_true_eq, beq_iff_eq] at h
    exact ⟨is, rfl, h.1.1, h.1.2, h.2⟩

theorem wf_pack {s : Sequence} {is : List Nat} (hre : s.reachable = some is)
    (hnd : is.Nodup) (hlen : s._length = is.length) (htl : s.tail = is.getLast?) :
    s.WF := by
  unfold Sequence.WF Sequence.wfb
  rw [hre]
  simp [hnd, hlen, htl]

theorem toList_eq {s : Sequence} {is : List Nat} (hre : s.reachable = some is) :
    s.toList = is.map (entryAt s.arena) := by
  unfold Sequence.toList
  rw [hre]

theorem append_spec (s : Sequence) (d : Str) (o : Int) (h : s.WF) :
    (s.append d o).WF ∧ (s.append d o).toList = s.toList ++ [(d, o)] := by
  obtain ⟨is, hre, hnd, hlen, htl⟩ := wf_unpack h
  by_cases h0 : s._length = 0
  · have hisnil : is = [] := List.length_eq_zero.mp (h0 ▸ hlen).symm
    subst hisnil
    have hhead : s.head = none := by
      cases hh : s.head with
      | none => rfl
      | some i =>
        exfalso
        have hre2 : chainList s.arena (s.arena.size + 1) (some i) = some [] := by
          rw [← hh]; exact hre
        exact chainList_some_ne_nil hre2
    have happ : s.append d o =
        { arena := s.arena.push { data := d, next := none, offset := o },
          head := some s.arena.size, tail := some s.arena.size,
          _length := s._length + 1 } := by
      unfold Sequence.append
      rw [if_pos (by simpa using h0)]
    rw [happ]
    have hre' : Sequence.reachable
        { arena := s.arena.push { data := d, next := none, offset := o },
          head := some s.arena.size, tail := some s.arena.size,
          _length := s._length + 1 } = some [s.arena.size] := by
      unfold Sequence.reachable
      simp only [Array.size_push]
      rw [chainList_succ_some, if_pos (by simp [Array.size_push])]
      rw [nextOf_push_eq, chainList_none]
      rfl
    constructor
    · exact wf_pack hre' (by simp) (by simpa using h0) (by simp)
    · rw [toList_eq hre', toList_eq hre]
      simp [entryAt_push_eq]
  · have hne : is ≠ [] := fun hc => h0 (by rw [hlen, hc]; rfl)
    cases hgl : is.getLast? with
    | none => exact absurd (List.getLast?_eq_none_iff.mp hgl) hne
    | some t =>
      have htl' : s.tail = some t := by rw [htl, hgl]
      have happ : s.append d o =
          { arena := (s.arena.push { data := d, next := none, offset := o }).modify t
              (fun f => { f with next := some s.arena.size }),
            head := s.head, tail := some s.arena.size,
            _length := s._length + 1 } := by
        unfold Sequence.append
        rw [if_neg (by simpa using h0), htl']
      have hmemlt : ∀ i ∈ is, i < s.arena.size := chainList_mem_lt hre
      have htlt : t < s.arena.size := hmemlt t (List.mem_of_getLast?_eq_some hgl)
      have hsnoc := chainList_snoc hre hnd hgl
        (x := { data := d, next := none, offset := o }) rfl
      have hlenle : is.length ≤ s.arena.size := nodup_length_le_size hre hnd
      rw [happ]
      have hre' : Sequence.reachable
          { arena := (s.arena.push { data := d, next := none, offset := o }).modify t
              (fun f => { f with next := some s.arena.size }),
            head := s.head, tail := some s.arena.size,
            _length := s._length + 1 } = some (is ++ [s.arena.size]) := by
        unfold Sequence.reachable
        simp only [Array.size_modify, Array.size_push]
        exact chainList_mono hsnoc (by omega)
      have hndnew : (is ++ [s.arena.size]).Nodup := by
        rw [List.nodup_append]
        refine ⟨hnd, List.nodup_singleton _, ?_⟩
        intro x hx hx'
        rcases List.mem_singleton.mp hx' with rfl
        exact Nat.lt_irrefl _ (hmemlt _ hx)
      constructor
      · refine wf_pack hre' hndnew ?_ ?_
        · simp [hlen]
        · rw [List.getLast?_concat]
      · rw [toList_eq hre', toList_eq hre]
        rw [List.map_append]
        congr 1
        · apply List.map_congr_left
          intro i hi
          by_cases hit : i = t
          · subst hit
            rw [entryAt_modify_keep
                (g := fun f => { f with next := some s.arena.size })
                (fun fr => ⟨rfl, rfl⟩),
              entryAt_push_lt htlt]
          · rw [entryAt_modify_ne (fun he => hit he.symm),
              entryAt_push_lt (hmemlt i hi)]
        · simp only [List.map_cons, List.map_nil]
          rw [entryAt_modify_ne (Nat.ne_of_lt htlt), entryAt_push_eq]

theorem foldl_append_spec (L : List (Str × Int)) (s : Sequence) (h : s.WF) :
    (L.foldl (fun acc d => acc.append d.1 d.2) s).WF ∧
      (L.foldl (fun acc d => acc.append d.1 d.2) s).toList = s.toList ++ L := by
  induction L generalizing s with
  | nil => simpa using h
  | cons p rest ih =>
    obtain ⟨hwf, htl⟩ := append_spec s p.1 p.2 h
    obtain ⟨hwf2, htl2⟩ := ih _ hwf
    refine ⟨by simpa using hwf2, ?_⟩
    simp only [List.foldl_cons] at htl2 ⊢
    rw [htl2, htl]
    simp

theorem merge_spec (first second : Sequence) (o : Int) (h : first.WF) :
    (first.merge second o).WF ∧
      (first.merge second o).toList = first.toList ++ second.toList := by
  unfold Sequence.merge
  exact foldl_append_spec second.toList first h

theorem boundary_frags {s : Sequence} (h : s.WF) (h0 : s._length ≠ 0) :
    ∃ hf tf, s.firstFrag = some hf ∧ s.lastFrag = some tf ∧
      s.headData = hf.data ∧ s.tailData = tf.data := by
  obtain ⟨is, hre, hnd, hlen, htl⟩ := wf_unpack h
  have hne : is ≠ [] := fun hc => h0 (by rw [hlen, hc]; rfl)
  cases his : is with
  | nil => exact absurd his hne
  | cons i rest =>
    rw [his] at hre htl
    obtain ⟨hhead, hilt, _⟩ := chainList_cons_elim hre
    cases hgl : (i :: rest).getLast? with
    | none => simp at hgl
    | some t =>
      rw [hgl] at htl
      have htmem : t ∈ i :: rest := List.mem_of_getLast?_eq_some hgl
      have htlt : t < s.arena.size := chainList_mem_lt hre t htmem
      have hff : s.firstFrag = some (s.arena[i]) := by
        unfold Sequence.firstFrag
        rw [hhead]
        simp [Array.getElem?_eq_getElem hilt]
      have hlf : s.lastFrag = some (s.arena[t]) := by
        unfold Sequence.lastFrag
        rw [htl]
        simp [Array.getElem?_eq_getElem htlt]
      refine ⟨s.arena[i], s.arena[t], hff, hlf, ?_, ?_⟩
      · unfold Sequence.headData
        rw [hff]
        rfl
      · unfold Sequence.tailData
        rw [hlf]
        rfl

theorem insertBody_head_on_pre (s : Sequence) (data : Str) (cur : Nat)
    (prev : Option Nat) (found : Bool)
    (h : prefixSpliceAtb s data cur = true) :
    (insertBody s data cur prev found).1.head = some s.arena.size := by
  unfold prefixSpliceAtb at h
  unfold insertBody
  cases hc : s.arena[cur]? with
  | none => rw [hc] at h; cases h
  | some cf =>
    rw [hc] at h
    simp only [Bool.and_eq_true, bne_iff_ne, ne_eq] at h
    obtain ⟨hdne, hov⟩ := h
    cases hfo : cf.find_overlap data with
    | none => rw [hfo] at hov; cases hov
    | some ov =>
      rw [hfo] at hov
      simp only [decide_eq_true_eq] at hov
      simp only [hfo, if_pos hdne, if_pos hov]

theorem insertBody_lenInv (s : Sequence) (data : Str) (cur : Nat)
    (prev : Option Nat) (found : Bool)
    (hst : scanState s cur)
    (hexc : prefixSpliceAtb s data cur = true → s.head = some cur ∧ prev = none) :
    (insertBody s data cur prev found).1.lenInv := by
  obtain ⟨is, hre, hnd, hlen, hcur⟩ := hst
  have hre0 : chainList s.arena (s.arena.size + 1) s.head = some is := hre
  have hmemlt : ∀ j ∈ is, j < s.arena.size := chainList_mem_lt hre0
  have hlenle : is.length ≤ s.arena.size := nodup_length_le_size hre0 hnd
  unfold insertBody
  cases hc : s.arena[cur]? with
  | none => exact ⟨is, hre, hnd, hlen⟩
  | some cf =>
    by_cases hdne : cf.data ≠ data
    · cases hfo : cf.find_overlap data with
      | none => simp only [hfo, if_pos hdne]; exact ⟨is, hre, hnd, hlen⟩
      | some ov =>
        by_cases hth : ov.their_index > 0
        · obtain ⟨hhead, hprev⟩ := hexc (by
            unfold prefixSpliceAtb
            simp [hc, hfo, hdne, hth])
          subst hprev
          simp only [hfo, if_pos hdne, if_pos hth]
          refine ⟨s.arena.size :: is, ?_, ?_, ?_⟩
          · show chainList
              (s.arena.push { data := data, next := some cur, offset := ov.their_index })
              ((s.arena.push { data := data, next := some cur, offset := ov.their_index }).size
                + 1)
              (some s.arena.size) = some (s.arena.size :: is)
            rw [Array.size_push, chainList_succ_some,
              if_pos (by rw [Array.size_push]; omega), nextOf_push_eq]
            have htrans : chainList
                (s.arena.push { data := data, next := some cur, offset := ov.their_index })
                (s.arena.size + 1) (some cur) = some is := by
              refine chainList_congr (a := s.arena) ?_ ?_ ?_
              · rw [← hhead]; exact hre0
              · rw [Array.size_push]; exact Nat.le_succ _
              · intro j hj
                exact nextOf_push_lt (hmemlt j hj)
            rw [htrans]
            rfl
          · exact List.nodup_cons.mpr
              ⟨fun hmem => Nat.lt_irrefl _ (hmemlt _ hmem), hnd⟩
          · simp [hlen]
        · by_cases hmy : ov.my_index > 0
          · simp only [hfo, if_pos hdne, if_neg hth, if_pos hmy]
            obtain ⟨l1, l2, rfl⟩ := List.append_of_mem hcur
            have hins := chainList_insertAfter
              (g := fun f =>
                { data := f.data, next := some s.arena.size, offset := ov.my_index })
              (x := { data := data, next := nextOf s.arena cur, offset := -1 })
              hre0 hnd (fun fr => rfl) rfl
            refine ⟨l1 ++ cur :: s.arena.size :: l2, ?_, ?_, ?_⟩
            · show chainList
                ((s.arena.push { data := data, next := nextOf s.arena cur, offset := -1 }).modify
                  cur (fun f =>
                    { data := f.data, next := some s.arena.size, offset := ov.my_index }))
                (((s.arena.push
                    { data := data, next := nextOf s.arena cur, offset := -1 }).modify
                  cur (fun f =>
                    { data := f.data, next := some s.arena.size,
                      offset := ov.my_index })).size + 1)
                s.head = some (l1 ++ cur :: s.arena.size :: l2)
              rw [Array.size_modify, Array.size_push]
              refine chainList_mono hins ?_
              simp only [List.length_append, List.length_cons] at hlenle ⊢
              omega
            · have hndparts := List.nodup_append.mp hnd
              have hcurl2 := List.nodup_cons.mp hndparts.2.1
              rw [List.nodup_append]
              refine ⟨hndparts.1, ?_, ?_⟩
              · rw [List.nodup_cons]
                refine ⟨?_, ?_⟩
                · intro hmem
                  rcases List.mem_cons.mp hmem with he | hmem2
                  · exact Nat.lt_irrefl _
                      (he ▸ hmemlt cur (List.mem_append_right l1 (List.mem_cons_self _ _)))
                  · exact hcurl2.1 hmem2
                · rw [List.nodup_cons]
                  refine ⟨fun hmem => Nat.lt_irrefl _
                    (hmemlt _ (List.mem_append_right l1 (List.mem_cons_of_mem _ hmem))), hcurl2.2⟩
              · intro x hx hx'
                rcases List.mem_cons.mp hx' with he | hx''
                · exact hndparts.2.2 hx (he ▸ List.mem_cons_self _ _)
                · rcases List.mem_cons.mp hx'' with he | hx3
                  · exact Nat.lt_irrefl _ (he ▸ hmemlt x (List.mem_append_left _ hx))
                  · exact hndparts.2.2 hx (List.mem_cons_of_mem _ hx3)
            · simp only [List.length_append, List.length_cons] at hlen ⊢
              omega
          · simp only [hfo, if_pos hdne, if_neg hth, if_neg hmy]
            refine ⟨is, ?_, hnd, hlen⟩
            show chainList (s.arena.push (Fragment.make data))
              ((s.arena.push (Fragment.make data)).size + 1) s.head = some is
            rw [Array.size_push]
            refine chainList_mono (chainList_congr hre0 ?_ ?_) (Nat.le_succ _)
            · rw [Array.size_push]; exact Nat.le_succ _
            · intro j hj
              exact nextOf_push_lt (hmemlt j hj)
    · simp only [if_neg hdne]
      exact ⟨is, hre, hnd, hlen⟩

/-! ## Lemmas about flatten and the chunking loop -/

theorem chunksOf_nil (w f : Nat) : chunksOf w f [] = [] := by
  cases f <;> rfl

theorem chunksOf_zero (w : Nat) (s : Str) : chunksOf w 0 s = [] := by
  cases s <;> rfl

theorem chunksOf_join {w : Nat} (hw : 0 < w) :
    ∀ (f : Nat) (s : Str), s.length ≤ f → (chunksOf w f s).flatten = s := by
  intro f
  induction f with
  | zero =>
    intro s hs
    have hnil : s = [] := List.length_eq_zero.mp (Nat.le_zero.mp hs)
    subst hnil
    rfl
  | succ n ih =>
    intro s hs
    cases s with
    | nil => rfl
    | cons c cs =>
      show (List.take w (c :: cs) :: chunksOf w n (List.drop w (c :: cs))).flatten = c :: cs
      rw [List.flatten_cons]
      rw [ih _ (by rw [List.length_drop]; simp at hs ⊢; omega)]
      exact List.take_append_drop w (c :: cs)

theorem chunksOf_sizes {w : Nat} (hw : 0 < w) :
    ∀ (f : Nat) (s : Str), ∀ c ∈ chunksOf w f s, 0 < c.length ∧ c.length ≤ w := by
  intro f
  induction f with
  | zero => intro s c hc; rw [chunksOf_zero] at hc; cases hc
  | succ n ih =>
    intro s c hc
    cases s with
    | nil => cases hc
    | cons x cs =>
      rcases List.mem_cons.mp hc with rfl | hc'
      · constructor
        · simp [List.length_take, hw]
        · simp [List.length_take]
      · exact ih _ c hc'

theorem chunksOf_dropLast {w : Nat} (hw : 0 < w) :
    ∀ (f : Nat) (s : Str), ∀ c ∈ (chunksOf w f s).dropLast, c.length = w := by
  intro f
  induction f with
  | zero => intro s c hc; rw [chunksOf_zero] at hc; cases hc
  | succ n ih =>
    intro s c hc
    cases s with
    | nil => cases hc
    | cons x cs =>
      have hch : chunksOf w (n + 1) (x :: cs) =
          List.take w (x :: cs) :: chunksOf w n (List.drop w (x :: cs)) := rfl
      rw [hch] at hc
      cases hr : chunksOf w n (List.drop w (x :: cs)) with
      | nil => rw [hr] at hc; cases hc
      | cons r rs =>
        rw [hr, List.dropLast_cons₂] at hc
        rcases List.mem_cons.mp hc with rfl | hc'
        · have hdne : List.drop w (x :: cs) ≠ [] := by
            intro hdnil
            rw [hdnil, chunksOf_nil] at hr
            cases hr
          have hwlt : w < (x :: cs).length := by
            by_contra hh
            exact hdne (List.drop_eq_nil_of_le (Nat.le_of_not_lt hh))
          rw [List.length_take]
          omega
        · rw [← hr] at hc'
          exact ih _ c hc'

theorem flattenWalk_none (a : Array Fragment) (f : Nat) : flattenWalk a f none = [] := by
  cases f <;> rfl

theorem flattenWalk_eq {a : Array Fragment} {f : Nat} {o : Option Nat} {is : List Nat}
    (h : chainList a f o = some is) :
    flattenWalk a f o =
      (is.map fun i =>
        if 0 < (entryAt a i).2 then (entryAt a i).1.take (entryAt a i).2.toNat
        else (entryAt a i).1).flatten := by
  induction f generalizing o is with
  | zero =>
    cases o with
    | none =>
      rw [chainList_none] at h
      cases h
      rfl
    | some i => rw [chainList_zero_some] at h; cases h
  | succ n ih =>
    cases o with
    | none =>
      rw [chainList_none] at h
      cases h
      rfl
    | some i =>
      cases is with
      | nil => exact absurd h (fun hc => chainList_some_ne_nil hc)
      | cons j rest =>
        obtain ⟨hji, hjlt, f', hf, hrec⟩ := chainList_cons_elim h
        injection hji with hji
        subst hji
        injection hf with hf
        have hstep : flattenWalk a (n + 1) (some i) =
            ((if (a[i]).offset > 0 then (a[i]).data.take (a[i]).offset.toNat
              else (a[i]).data) ++ flattenWalk a n (a[i]).next) := by
          show (match a[i]? with
            | none => []
            | some fr =>
              (if fr.offset > 0 then fr.data.take fr.offset.toNat else fr.data) ++
                flattenWalk a n fr.next) = _
          rw [Array.getElem?_eq_getElem hjlt]
        rw [hstep]
        have hnext : (a[i]).next = nextOf a i := by
          unfold nextOf
          rw [Array.getElem?_eq_getElem hjlt]
        have hentry : entryAt a i = ((a[i]).data, (a[i]).offset) := by
          unfold entryAt
          rw [Array.getElem?_eq_getElem hjlt]
        rw [List.map_cons, List.flatten_cons, hentry]
        have hrec' : chainList a n (nextOf a i) = some rest := by
          rw [← hf] at hrec
          exact hrec
        rw [hnext, ih hrec']

/-! ## Lemmas about the assemble loop -/

theorem innerScan_some_length {seqs : List Sequence} {i : Nat} :
    ∀ {fuel j : Nat} {s' : List Sequence}, innerScan seqs i fuel j = some s' →
      i + 1 ≤ j → s'.length = seqs.length - 1 ∧ 2 ≤ seqs.length := by
  intro fuel
  induction fuel with
  | zero => intro j s' h hij; cases h
  | succ n ih =>
    intro j s' h hij
    have hstep : innerScan seqs i (n + 1) j =
        if j < seqs.length then
          match (seqs[i]!).merge_if_overlaps (seqs[j]!) with
          | some m => some (((seqs.eraseIdx j).eraseIdx i) ++ [m])
          | none => innerScan seqs i n (j + 1)
        else none := rfl
    rw [hstep] at h
    by_cases hj : j < seqs.length
    · rw [if_pos hj] at h
      cases hm : (seqs[i]!).merge_if_overlaps (seqs[j]!) with
      | some m =>
        rw [hm] at h
        injection h with h
        subst h
        have hlen1 : (seqs.eraseIdx j).length = seqs.length - 1 :=
          List.length_eraseIdx_of_lt hj
        have hlen2 : ((seqs.eraseIdx j).eraseIdx i).length = seqs.length - 2 := by
          rw [List.length_eraseIdx_of_lt (by omega), hlen1]
          omega
        constructor
        · rw [List.length_append, hlen2]
          simp
          omega
        · omega
      | none =>
        rw [hm] at h
        exact ih h (by omega)
    · rw [if_neg hj] at h; cases h

theorem roundScan_le : ∀ (k i : Nat) (seqs : List Sequence),
    (roundScan k i seqs).length ≤ seqs.length := by
  intro k
  induction k with
  | zero => intro i seqs; exact Nat.le_refl _
  | succ n ih =>
    intro i seqs
    have hstep : roundScan (n + 1) i seqs =
        if i < seqs.length then
          match innerScan seqs i (seqs.length + 1) (i + 1) with
          | some seqs' => roundScan n (i + 1) seqs'
          | none => roundScan n (i + 1) seqs
        else seqs := rfl
    rw [hstep]
    by_cases hi : i < seqs.length
    · rw [if_pos hi]
      cases hm : innerScan seqs i (seqs.length + 1) (i + 1) with
      | some seqs' =>
        have hl := innerScan_some_length hm (Nat.le_refl _)
        calc (roundScan n (i + 1) seqs').length ≤ seqs'.length := ih _ _
          _ ≤ seqs.length := by omega
      | none => exact ih _ _
    · rw [if_neg hi]

theorem doRound_le (seqs : List Sequence) : (doRound seqs).length ≤ seqs.length :=
  roundScan_le _ _ _

theorem assembleLoop_terminates : ∀ (fuel : Nat) (seqs : List Sequence),
    seqs.length < fuel →
    (∃ fin, assembleLoop fuel seqs.length seqs = AsmResult.done fin ∧ fin.length ≤ 1) ∨
      (∃ n, assembleLoop fuel seqs.length seqs = AsmResult.stuck n) := by
  intro fuel
  induction fuel with
  | zero => intro seqs h; omega
  | succ f ih =>
    intro seqs h
    have hstep : assembleLoop (f + 1) seqs.length seqs =
        if seqs.length ≤ 1 then AsmResult.done seqs
        else
          if seqs.length == (doRound seqs).length then AsmResult.stuck (doRound seqs).length
          else assembleLoop f (doRound seqs).length (doRound seqs) := rfl
    rw [hstep]
    by_cases h1 : seqs.length ≤ 1
    · rw [if_pos h1]
      exact Or.inl ⟨seqs, rfl, h1⟩
    · rw [if_neg h1]
      cases hb : (seqs.length == (doRound seqs).length) with
      | true => rw [if_pos rfl]; exact Or.inr ⟨_, rfl⟩
      | false =>
        rw [if_neg Bool.false_ne_true]
        have hne : seqs.length ≠ (doRound seqs).length := by
          intro he
          rw [he] at hb
          simp at hb
        have hlt : (doRound seqs).length < seqs.length :=
          Nat.lt_of_le_of_ne (doRound_le seqs) (fun he => hne he.symm)
        exact ih (doRound seqs) (by omega)

theorem innerScan_first {seqs : List Sequence} {i j : Nat} {m : Sequence}
    (hij : i < j) (hj : j < seqs.length)
    (hfail : ∀ j', i < j' → j' < j →
      (seqs[i]!).merge_if_overlaps (seqs[j']!) = none)
    (hm : (seqs[i]!).merge_if_overlaps (seqs[j]!) = some m) :
    ∀ {fuel j0 : Nat}, i < j0 → j0 ≤ j → j - j0 < fuel →
      innerScan seqs i fuel j0 = some (((seqs.eraseIdx j).eraseIdx i) ++ [m]) := by
  intro fuel
  induction fuel with
  | zero => intro j0 h1 h2 h3; omega
  | succ n ih =>
    intro j0 h1 h2 h3
    have hstep : innerScan seqs i (n + 1) j0 =
        if j0 < seqs.length then
          match (seqs[i]!).merge_if_overlaps (seqs[j0]!) with
          | some m => some (((seqs.eraseIdx j0).eraseIdx i) ++ [m])
          | none => innerScan seqs i n (j0 + 1)
        else none := rfl
    rw [hstep]
    have hj0lt : j0 < seqs.length := Nat.lt_of_le_of_lt h2 hj
    rw [if_pos hj0lt]
    by_cases hje : j0 = j
    · subst hje
      rw [hm]
    · have hlt : j0 < j := Nat.lt_of_le_of_ne h2 hje
      rw [hfail j0 h1 hlt]
      exact ih (by omega) (by omega) (by omega)

/-! ## Lemmas about the longest-common-substring model -/

theorem take_drop_isInf (a : Str) (i n : Nat) : (a.drop i).take n <:+: a := by
  refine ⟨a.take i, (a.drop i).drop n, ?_⟩
  rw [List.append_assoc, List.take_append_drop, List.take_append_drop]

theorem mem_substrsOf {a S : Str} : S ∈ substrsOf a ↔ S <:+: a := by
  unfold substrsOf
  rw [List.mem_dedup, List.mem_flatMap]
  constructor
  · rintro ⟨i, hi, hmem⟩
    rw [List.mem_map] at hmem
    obtain ⟨n, hn, rfl⟩ := hmem
    exact take_drop_isInf a i n
  · rintro ⟨s, t, hst⟩
    have hlen : s.length + S.length + t.length = a.length := by
      have hcl := congrArg List.length hst
      simp only [List.length_append] at hcl
      omega
    refine ⟨s.length, ?_, ?_⟩
    · rw [List.mem_range]
      omega
    · rw [List.mem_map]
      refine ⟨S.length, ?_, ?_⟩
      · rw [List.mem_range]
        omega
      · have hst' : s ++ (S ++ t) = a := by
          rw [← List.append_assoc]
          exact hst
        rw [← hst', List.drop_left, List.take_left]

theorem mem_commonSubs {a b S : Str} : S ∈ commonSubs a b ↔ S <:+: a ∧ S <:+: b := by
  unfold commonSubs
  rw [List.mem_filter, mem_substrsOf]
  simp only [decide_eq_true_eq]

theorem le_foldr_max {l : List Nat} {x : Nat} (h : x ∈ l) : x ≤ l.foldr max 0 := by
  induction l with
  | nil => cases h
  | cons y ys ih =>
    rcases List.mem_cons.mp h with rfl | h'
    · exact Nat.le_max_left _ _
    · exact Nat.le_trans (ih h') (Nat.le_max_right _ _)

theorem foldr_max_mem (l : List Nat) : l.foldr max 0 = 0 ∨ l.foldr max 0 ∈ l := by
  induction l with
  | nil => left; rfl
  | cons y ys ih =>
    show max y (ys.foldr max 0) = 0 ∨ max y (ys.foldr max 0) ∈ y :: ys
    by_cases hc : ys.foldr max 0 ≤ y
    · right
      rw [Nat.max_eq_left hc]
      exact List.mem_cons_self _ _
    · have hgt : y < ys.foldr max 0 := Nat.lt_of_not_le hc
      rw [Nat.max_eq_right (Nat.le_of_lt hgt)]
      rcases ih with h0 | hmem
      · rw [h0] at hgt
        exact absurd hgt (Nat.not_lt_zero _)
      · exact Or.inr (List.mem_cons_of_mem _ hmem)

theorem length_le_maxCommonLen {a b S : Str} (h1 : S <:+: a) (h2 : S <:+: b) :
    S.length ≤ maxCommonLen a b :=
  le_foldr_max (List.mem_map.mpr ⟨S, mem_commonSubs.mpr ⟨h1, h2⟩, rfl⟩)

theorem maxCommonLen_attained (a b : Str) :
    ∃ S, S ∈ commonSubs a b ∧ S.length = maxCommonLen a b := by
  rcases foldr_max_mem ((commonSubs a b).map List.length) with h0 | hmem
  · refine ⟨[], mem_commonSubs.mpr ⟨⟨[], a, rfl⟩, ⟨[], b, rfl⟩⟩, ?_⟩
    rw [show maxCommonLen a b = ((commonSubs a b).map List.length).foldr max 0 from rfl, h0]
    rfl
  · rw [List.mem_map] at hmem
    obtain ⟨S, hS, hlen⟩ := hmem
    exact ⟨S, hS, hlen⟩

theorem mem_lcs {a b S : Str} :
    S ∈ find_longest_common_substrings a b ↔
      S <:+: a ∧ S <:+: b ∧ S.length = maxCommonLen a b := by
  unfold find_longest_common_substrings
  rw [List.mem_filter, mem_commonSubs]
  simp only [beq_iff_eq, and_assoc]

theorem lcs_nodup (a b : Str) : (find_longest_common_substrings a b).Nodup := by
  unfold find_longest_common_substrings commonSubs substrsOf
  exact ((List.nodup_dedup _).filter _).filter _

theorem nodup_all_eq_singleton {l : List Str} {S : Str} (hnd : l.Nodup) (hS : S ∈ l)
    (hall : ∀ x ∈ l, x = S) : l = [S] := by
  cases l with
  | nil => cases hS
  | cons y ys =>
    have hy : y = S := hall y (List.mem_cons_self _ _)
    subst hy
    cases ys with
    | nil => rfl
    | cons z zs =>
      have hz : z = y := hall z (List.mem_cons_of_mem _ (List.mem_cons_self _ _))
      exfalso
      have hmem : y ∈ z :: zs := by
        rw [hz]
        exact List.mem_cons_self _ _
      exact (List.nodup_cons.mp hnd).1 hmem

theorem lcs_singleton_iff {a b S : Str} :
    find_longest_common_substrings a b = [S] ↔ UniqueMaxCommon a b S := by
  constructor
  · intro h
    have hS : S ∈ find_longest_common_substrings a b := by
      rw [h]
      exact List.mem_cons_self _ _
    obtain ⟨ha, hb, hlen⟩ := mem_lcs.mp hS
    refine ⟨ha, hb, ?_, ?_⟩
    · intro T hTa hTb
      rw [hlen]
      exact length_le_maxCommonLen hTa hTb
    · intro T hTa hTb hTlen
      have hT : T ∈ find_longest_common_substrings a b :=
        mem_lcs.mpr ⟨hTa, hTb, by rw [hTlen, hlen]⟩
      rw [h] at hT
      exact List.mem_singleton.mp hT
  · rintro ⟨ha, hb, hmax, huniq⟩
    have hmcl : maxCommonLen a b = S.length := by
      obtain ⟨T, hT, hTlen⟩ := maxCommonLen_attained a b
      obtain ⟨hTa, hTb⟩ := mem_commonSubs.mp hT
      have h1 : T.length ≤ S.length := hmax T hTa hTb
      have h2 : S.length ≤ maxCommonLen a b := length_le_maxCommonLen ha hb
      omega
    have hS : S ∈ find_longest_common_substrings a b :=
      mem_lcs.mpr ⟨ha, hb, hmcl.symm⟩
    refine nodup_all_eq_singleton (lcs_nodup a b) hS ?_
    intro x hx
    obtain ⟨hxa, hxb, hxlen⟩ := mem_lcs.mp hx
    exact huniq x hxa hxb (by rw [hxlen, hmcl])

theorem uniqueMax_eq {a b S S' : Str} (h : UniqueMaxCommon a b S)
    (h' : UniqueMaxCommon a b S') : S' = S :=
  h.2.2.2 S' h'.1 h'.2.1
    (Nat.le_antisymm (h.2.2.1 S' h'.1 h'.2.1) (h'.2.2.1 S h.1 h.2.1))


/-! ## The claims -/

/-- C1: for every pair of strings, `Fragment.find_overlap` returns the
first-occurrence index pair of the longest common substring `S` exactly when
the set of maximal-length common substrings is a singleton `{S}` and
`length(S) / length(self.data) > 0.5` (equivalently `2·|S| > |self.data|`);
in every other case (a tie, or a ratio not strictly above one half) it
returns `None`. -/
theorem claim_C1 (a b : Str) :
    (∀ ov, findOverlap a b = some ov ↔
      ∃ S, UniqueMaxCommon a b S ∧ 2 * S.length > a.length ∧
        ov = ⟨pyFind a S, pyFind b S⟩) ∧
    (findOverlap a b = none ↔
      ¬ ∃ S, UniqueMaxCommon a b S ∧ 2 * S.length > a.length) := by
  cases hL : find_longest_common_substrings a b with
  | nil =>
    have hfo : findOverlap a b = none := by
      unfold findOverlap
      rw [hL]
    have hnex : ¬ ∃ S, UniqueMaxCommon a b S ∧ 2 * S.length > a.length := by
      rintro ⟨S, hS, _⟩
      rw [lcs_singleton_iff.mpr hS] at hL
      cases hL
    refine ⟨fun ov => ⟨fun h => ?_, ?_⟩, ⟨fun _ => hnex, fun _ => hfo⟩⟩
    · rw [hfo] at h
      cases h
    · rintro ⟨S, hS, hcond, rfl⟩
      exact absurd ⟨S, hS, hcond⟩ hnex
  | cons S rest =>
    cases rest with
    | nil =>
      have hfo : findOverlap a b =
          if 2 * S.length > a.length then
            some ⟨pyFind a S, pyFind b S⟩
          else none := by
        unfold findOverlap
        rw [hL]
      have hU : UniqueMaxCommon a b S := lcs_singleton_iff.mp hL
      by_cases hcond : 2 * S.length > a.length
      · rw [if_pos hcond] at hfo
        refine ⟨fun ov => ⟨?_, ?_⟩, ⟨?_, ?_⟩⟩
        · intro h
          rw [hfo] at h
          exact ⟨S, hU, hcond, (Option.some.inj h).symm⟩
        · rintro ⟨S', hS', hcond', rfl⟩
          have he : S' = S := uniqueMax_eq hU hS'
          subst he
          exact hfo
        · intro h
          rw [hfo] at h
          cases h
        · intro h
          exact absurd ⟨S, hU, hcond⟩ h
      · rw [if_neg hcond] at hfo
        have hnex : ¬ ∃ S', UniqueMaxCommon a b S' ∧ 2 * S'.length > a.length := by
          rintro ⟨S', hS', hcond'⟩
          have he : S' = S := uniqueMax_eq hU hS'
          subst he
          exact hcond hcond'
        refine ⟨fun ov => ⟨?_, ?_⟩, ⟨fun _ => hnex, fun _ => hfo⟩⟩
        · intro h
          rw [hfo] at h
          cases h
        · rintro ⟨S', hS', hcond', rfl⟩
          exact absurd ⟨S', hS', hcond'⟩ hnex
    | cons S2 rest2 =>
      have hfo : findOverlap a b = none := by
        unfold findOverlap
        rw [hL]
      have hnex : ¬ ∃ S', UniqueMaxCommon a b S' ∧ 2 * S'.length > a.length := by
        rintro ⟨S', hS', _⟩
        rw [lcs_singleton_iff.mpr hS'] at hL
        simp at hL
      refine ⟨fun ov => ⟨fun h => ?_, ?_⟩, ⟨fun _ => hnex, fun _ => hfo⟩⟩
      · rw [hfo] at h
        cases h
      · rintro ⟨S', hS', hcond', rfl⟩
        exact absurd ⟨S', hS', hcond'⟩ hnex

/-- Witness for C1 at `self.data = "AAAB"`, `data = "CAAA"`: the returned
pair `{my_index: 0, their_index: 1}` comes with the unique maximal common
substring `"AAA"`. -/
theorem claim_C1_witness :
    ∃ S, UniqueMaxCommon (['A','A','A','B']) (['C','A','A','A']) S ∧
      2 * S.length > (['A','A','A','B'] : Str).length ∧
      (⟨0, 1⟩ : Overlap) =
        ⟨pyFind (['A','A','A','B']) S, pyFind (['C','A','A','A']) S⟩ :=
  ((claim_C1 (['A','A','A','B']) (['C','A','A','A'])).1 ⟨0, 1⟩).mp (by decide)

/-- C2: for non-empty chains, `merge_if_overlaps` checks exactly the two
boundary pairings `head.find_overlap(other.tail.data)` then
`tail.find_overlap(other.head.data)`; on the first match the result is
`other`'s fragments followed by `self`'s, on the second `self`'s followed by
`other`'s, and with neither it returns `None`. -/
theorem claim_C2 (s other : Sequence) (hs : s.WF) (ho : other.WF)
    (h1 : s._length ≠ 0) (h2 : other._length ≠ 0) :
    (s.merge_if_overlaps other).map Sequence.toList =
      if (findOverlap s.headData other.tailData).isSome then
        some (other.toList ++ s.toList)
      else if (findOverlap s.tailData other.headData).isSome then
        some (s.toList ++ other.toList)
      else none := by
  obtain ⟨hf, tf, hff, hlf, hhd, htd⟩ := boundary_frags hs h1
  obtain ⟨hf2, tf2, hff2, hlf2, hhd2, htd2⟩ := boundary_frags ho h2
  have hmio : s.merge_if_overlaps other =
      match findOverlap s.headData other.tailData with
      | some ov => some (Sequence.merge other s ov.their_index)
      | none =>
        match findOverlap s.tailData other.headData with
        | some ov => some (Sequence.merge s other ov.my_index)
        | none => none := by
    unfold Sequence.merge_if_overlaps
    rw [hff, hlf, hff2, hlf2]
    show (match hf.find_overlap tf2.data with
      | some ov => some (Sequence.merge other s ov.their_index)
      | none =>
        match tf.find_overlap hf2.data with
        | some ov => some (Sequence.merge s other ov.my_index)
        | none => none) = _
    unfold Fragment.find_overlap
    rw [hhd, htd2, htd, hhd2]
  rw [hmio]
  cases hov1 : findOverlap s.headData other.tailData with
  | some ov =>
    simp only [Option.map_some', Option.isSome_some, if_true]
    rw [(merge_spec other s ov.their_index ho).2]
  | none =>
    cases hov2 : findOverlap s.tailData other.headData with
    | some ov =>
      simp only [Option.map_some', Option.isSome_none, Option.isSome_some,
        Bool.false_eq_true, if_false, if_true]
      rw [(merge_spec s other ov.my_index hs).2]
    | none => simp

/-- Witness for C2: the singleton chains `AACCC` and `CCCGG` merge through
the first boundary pairing, `other` preceding `self`. -/
theorem claim_C2_witness :
    (seqA.merge_if_overlaps seqB).map Sequence.toList =
      if (findOverlap seqA.headData seqB.tailData).isSome then
        some (seqB.toList ++ seqA.toList)
      else if (findOverlap seqA.tailData seqB.headData).isSome then
        some (seqA.toList ++ seqB.toList)
      else none :=
  claim_C2 seqA seqB (by decide) (by decide) (by decide) (by decide)

/-- C3: the assemble loop terminates on every finite initial set: a round
never grows the set, and the loop (given fuel one more than the initial
cardinality) ends in the normal exit with at most one chain or in the fatal
stuck state — never by running out of fuel. -/
theorem claim_C3 (seqs : List Sequence) :
    (doRound seqs).length ≤ seqs.length ∧
      ((∃ fin, assemble seqs = AsmResult.done fin ∧ fin.length ≤ 1) ∨
        (∃ n, assemble seqs = AsmResult.stuck n)) :=
  ⟨doRound_le seqs, assembleLoop_terminates (seqs.length + 1) seqs (Nat.lt_succ_self _)⟩

/-- Counterexample to C4: on the three singleton chains `AACCC`, `CCCGG`,
`GGAAC`, the code's round merges the first two and then continues the outer
scan at index 1 of the mutated set, ending the round with two chains; the
restart-from-the-top round described by the claim would also merge `GGAAC`
in and end with one chain.  The round therefore does not restart from the
top. -/
theorem claim_C4_counterexample :
    (doRound exSet3).length = 2 ∧ (specRestartRound 3 exSet3).length = 1 ∧
      doRound exSet3 ≠ specRestartRound 3 exSet3 := by
  decide

/-- C4 as amended: on the first successful merge at ordered positions
`(i, j)`, both inputs are removed, the merged chain is appended at the end,
and the round continues with the next outer index over the now-mutated set
(the inner scan is abandoned); it does not restart from the top. -/
theorem claim_C4_amended {seqs : List Sequence} {i j k : Nat} {m : Sequence}
    (hij : i < j) (hj : j < seqs.length)
    (hfail : ∀ j', i < j' → j' < j →
      (seqs[i]!).merge_if_overlaps (seqs[j']!) = none)
    (hm : (seqs[i]!).merge_if_overlaps (seqs[j]!) = some m) :
    roundScan (k + 1) i seqs =
      roundScan k (i + 1) (((seqs.eraseIdx j).eraseIdx i) ++ [m]) := by
  have hstep : roundScan (k + 1) i seqs =
      if i < seqs.length then
        match innerScan seqs i (seqs.length + 1) (i + 1) with
        | some seqs' => roundScan k (i + 1) seqs'
        | none => roundScan k (i + 1) seqs
      else seqs := rfl
  rw [hstep, if_pos (Nat.lt_trans hij hj)]
  rw [innerScan_first hij hj hfail hm (Nat.lt_succ_self i) hij (by omega)]

/-- Witness for the amended C4 at the concrete three-chain set: the merge at
`(0, 1)` removes both inputs, appends the merged chain, and the round
continues at outer index 1. -/
theorem claim_C4_amended_witness :
    roundScan 2 0 exSet3 =
      roundScan 1 1 (((exSet3.eraseIdx 1).eraseIdx 0) ++ [Sequence.merge seqB seqA 0]) :=
  claim_C4_amended (by decide) (by decide)
    (fun j' h1 h2 => by omega) (by decide)

/-- Counterexample to C5: inserting `CAAA` into the chain `TTTT → AAAB`
prefix-splices before the interior (non-head) fragment `AAAB` (the head
fragment `TTTT` has no overlap), yet the head pointer moves to the new
fragment, index 2, instead of staying at index 0. -/
theorem claim_C5_counterexample :
    exChain2.reachable = some [0, 1] ∧ exChain2.head = some 0 ∧
      findOverlap (['T','T','T','T']) exRead2 = none ∧
      prefixSpliceAtb exChain2 exRead2 1 = true ∧
      (exChain2.insert_if_overlaps exRead2).1.head = some 2 := by
  decide

/-- C5 as amended: whenever a scan step of `insert_if_overlaps` takes the
prefix-extension branch, the chain's head pointer is set to the newly
allocated fragment unconditionally — also when the matched fragment is an
interior (non-head) fragment. -/
theorem claim_C5_amended (s : Sequence) (data : Str) (cur : Nat)
    (prev : Option Nat) (found : Bool)
    (h : prefixSpliceAtb s data cur = true) :
    (insertBody s data cur prev found).1.head = some s.arena.size :=
  insertBody_head_on_pre s data cur prev found h

/-- Witness for the amended C5 at the concrete interior prefix splice. -/
theorem claim_C5_amended_witness :
    (insertBody exChain2 exRead2 1 (some 0) false).1.head = some 2 :=
  claim_C5_amended exChain2 exRead2 1 (some 0) false (by decide)

/-- Counterexample to C6: after inserting `CAAA` into the well-formed chain
`TTTT → AAAB` (an interior prefix splice), the stored length counter is 3
while only 2 fragments are reachable from the head — the invariant is not
preserved by every chain operation. -/
theorem claim_C6_counterexample :
    exChain2.WF ∧
      (exChain2.insert_if_overlaps exRead2).1._length = 3 ∧
      ((exChain2.insert_if_overlaps exRead2).1.reachable).map List.length = some 2 := by
  decide

/-- C6 as amended: the length invariant holds for construction and is
preserved by `append`, by `merge`, and by every scan step of
`insert_if_overlaps` other than an interior prefix splice (for a prefix
splice the matched fragment must be the chain head, with no predecessor, as
in the head-insertion case the spec describes). -/
theorem claim_C6_amended :
    Sequence.empty.lenInv ∧
    (∀ f : Fragment, f.next = none → (Sequence.withFirst f).lenInv) ∧
    (∀ s : Sequence, s.WF → s.lenInv) ∧
    (∀ (s : Sequence) (d : Str) (o : Int), s.WF → (s.append d o).WF) ∧
    (∀ (first second : Sequence) (o : Int), first.WF → (first.merge second o).WF) ∧
    (∀ (s : Sequence) (data : Str) (cur : Nat) (prev : Option Nat) (found : Bool),
      scanState s cur →
      (prefixSpliceAtb s data cur = true → s.head = some cur ∧ prev = none) →
      (insertBody s data cur prev found).1.lenInv) := by
  refine ⟨⟨[], rfl, List.nodup_nil, rfl⟩, ?_, ?_, ?_, ?_, ?_⟩
  · intro f hf
    refine ⟨[0], ?_, List.nodup_singleton 0, rfl⟩
    show chainList #[f] 2 (some 0) = some [0]
    rw [chainList_succ_some, if_pos (by simp)]
    have hn : nextOf #[f] 0 = none := by
      unfold nextOf
      simp [hf]
    rw [hn, chainList_none]
    rfl
  · intro s hs
    obtain ⟨is, hre, hnd, hlen, _⟩ := wf_unpack hs
    exact ⟨is, hre, hnd, hlen⟩
  · intro s d o hs
    exact (append_spec s d o hs).1
  · intro first second o hf
    exact (merge_spec first second o hf).1
  · intro s data cur prev found hst hexc
    exact insertBody_lenInv s data cur prev found hst hexc

/-- Witness for the amended C6: an append on a concrete well-formed chain,
and a scan step (head prefix splice of `CAAA` into the singleton `AAAB`)
preserving the invariant. -/
theorem claim_C6_amended_witness :
    (exChain1.append (['C','C']) (-1)).WF ∧
      (insertBody exChain1 exRead2 0 none false).1.lenInv :=
  ⟨claim_C6_amended.2.2.2.1 exChain1 (['C','C']) (-1) (by decide),
    claim_C6_amended.2.2.2.2.2 exChain1 exRead2 0 none false
      ⟨[0], by decide, by decide, by decide, by decide⟩
      (fun _ => ⟨rfl, rfl⟩)⟩

/-- Counterexample to C7: a fragment whose offset has been set to `N = 0`
is emitted in full — `flatten` tests `offset > 0`, so offset `0` falls into
the full-data branch instead of emitting the first 0 characters. -/
theorem claim_C7_counterexample :
    exChain0.toList = [((['A','B'] : Str), (0 : Int))] ∧
      Sequence.flatten exChain0 0 (['\n']) = ['A','B'] ∧
      (['A','B'] : Str) ≠ ([] : Str) := by
  decide

/-- C7 as amended: for every well-formed chain, flatten emits the full data
of a fragment whenever its offset is not positive (the sentinel `-1`, and
also `0`), and exactly the first `N` characters whenever the offset is a
positive `N`. -/
theorem claim_C7_amended (s : Sequence) (term : Str) (h : s.WF) :
    Sequence.flatten s 0 term =
      (s.toList.map fun d => if 0 < d.2 then d.1.take d.2.toNat else d.1).flatten := by
  obtain ⟨is, hre, _, _, _⟩ := wf_unpack h
  have hre0 : chainList s.arena (s.arena.size + 1) s.head = some is := hre
  show flattenWalk s.arena (s.arena.size + 1) s.head = _
  rw [flattenWalk_eq hre0, toList_eq hre, List.map_map]
  rfl

/-- Witness for the amended C7 on the concrete two-fragment chain. -/
theorem claim_C7_amended_witness :
    Sequence.flatten exChain2 0 (['\n']) =
      (exChain2.toList.map fun d => if 0 < d.2 then d.1.take d.2.toNat else d.1).flatten :=
  claim_C7_amended exChain2 (['\n']) (by decide)

/-- C8: with `max_width = 60`, flatten re-chunks the offset-honoring
concatenation `out` into slices of exactly 60 characters except a possibly
shorter (but non-empty) final slice, appends the terminator after every
slice including the last, and the slices concatenate back to `out`. -/
theorem claim_C8 (s : Sequence) (term : Str) :
    Sequence.flatten s 60 term =
      ((chunksOf 60 (Sequence.flatten s 0 term).length
        (Sequence.flatten s 0 term)).map (· ++ term)).flatten ∧
    (chunksOf 60 (Sequence.flatten s 0 term).length
      (Sequence.flatten s 0 term)).flatten = Sequence.flatten s 0 term ∧
    (∀ c ∈ (chunksOf 60 (Sequence.flatten s 0 term).length
        (Sequence.flatten s 0 term)).dropLast, c.length = 60) ∧
    (∀ c ∈ chunksOf 60 (Sequence.flatten s 0 term).length
        (Sequence.flatten s 0 term), 0 < c.length ∧ c.length ≤ 60) := by
  refine ⟨rfl, ?_, ?_, ?_⟩
  · exact chunksOf_join (by omega) _ _ (Nat.le_refl _)
  · exact chunksOf_dropLast (by omega) _ _
  · exact chunksOf_sizes (by omega) _ _

/-- Witness-style instance for C8 on a concrete chain: the chunks
concatenate back to the unchunked flatten output. -/
theorem claim_C8_witness :
    (chunksOf 60 (Sequence.flatten exChain2 0 (['\n'])).length
      (Sequence.flatten exChain2 0 (['\n']))).flatten =
      Sequence.flatten exChain2 0 (['\n']) :=
  (claim_C8 exChain2 (['\n'])).2.1

/-- C9: the static merge primitive ignores its explicit overlap-offset
argument — any two offset arguments give identical results — and the result
is `first` with every fragment of `second` appended in order, each keeping
its own pre-existing offset. -/
theorem claim_C9 (first second : Sequence) (o1 o2 : Int) :
    Sequence.merge first second o1 = Sequence.merge first second o2 ∧
    (first.WF →
      (Sequence.merge first second o1).toList = first.toList ++ second.toList) :=
  ⟨rfl, fun h => (merge_spec first second o1 h).2⟩

/-- Witness for C9 at two different offset arguments on concrete chains. -/
theorem claim_C9_witness :
    Sequence.merge seqA seqB 5 = Sequence.merge seqA seqB (-7) ∧
      (Sequence.merge seqA seqB 5).toList = seqA.toList ++ seqB.toList :=
  ⟨(claim_C9 seqA seqB 5 (-7)).1, (claim_C9 seqA seqB 5 (-7)).2 (by decide)⟩

/-- C10: there is a well-formed chain and a fresh incoming string for which
`insert_if_overlaps` returns `True` (the accepted overlap has
`their_index = 0` and `my_index = 0`) yet splices nothing — head, tail,
length and the fragment contents are unchanged — and the driver's ingest
then treats the fragment as inserted, so the string is silently dropped
from the assembly. -/
theorem claim_C10 :
    ∃ (s : Sequence) (data : Str),
      s.WF ∧ s.toList ≠ [] ∧ (∀ p ∈ s.toList, p.1 ≠ data) ∧
      (∃ hd, s.toList.head? = some hd ∧ findOverlap hd.1 data = some ⟨0, 0⟩) ∧
      (s.insert_if_overlaps data).2 = true ∧
      (s.insert_if_overlaps data).1.head = s.head ∧
      (s.insert_if_overlaps data).1.tail = s.tail ∧
      (s.insert_if_overlaps data).1._length = s._length ∧
      (s.insert_if_overlaps data).1.toList = s.toList ∧
      insert_fragment_in_place [s] data = [(s.insert_if_overlaps data).1] ∧
      (insert_fragment_in_place [s] data).map Sequence.toList = [s.toList] :=
  ⟨exChain1, exRead1, by decide⟩
